import Mathlib

/-!
Verification of the unit-ranking engine of the Class006 portal.

The embedding follows `server/storage.ts` (`DatabaseStorage.getUnitRankings`,
`completeAssignment`, `updateUserRank`) and the table declarations of
`shared/schema.ts`.  Timestamps are integer milliseconds (`Date.getTime()`),
modelled as `Int`; the JavaScript `Map` keyed by user id is modelled as an
association list kept in insertion order; `Array.prototype.sort` is modelled
as a stable merge sort, matching its specified behaviour for a consistent
comparator.  The external `date-fns` `formatDistance` function is a parameter
`fmt : Int → Int → String` of the computation.
-/

namespace Class006

/-- Row of the `users` table (`shared/schema.ts`). -/
structure User where
  id : Nat
  name : String
  admissionNumber : String
  password : String
  profileImageUrl : Option String
  rank : Option Int
  role : String
  deriving Repr, DecidableEq

/-- Row of the `assignments` table (`shared/schema.ts`). -/
structure Assignment where
  id : Nat
  title : String
  description : String
  deadline : Int
  fileUrl : Option String
  unitCode : String
  userId : Nat
  createdAt : Int
  deriving Repr, DecidableEq

/-- Row of the `completed_assignments` table (`shared/schema.ts`). -/
structure CompletedAssignment where
  id : Nat
  assignmentId : Nat
  userId : Nat
  completedAt : Int
  deriving Repr, DecidableEq

/-- One row of the select in `getUnitRankings` that joins
`completedAssignments` with `users` and `assignments`. -/
structure CompletionRow where
  userId : Nat
  name : String
  profileImageUrl : Option String
  assignmentId : Nat
  completedAt : Int
  deriving Repr, DecidableEq

/-- Element pushed onto `userData.completions` in `getUnitRankings`. -/
structure CompletionEntry where
  assignmentId : Nat
  completedAt : Int
  createdAt : Int
  title : String
  completionTime : String
  deriving Repr, DecidableEq

/-- Value stored in `userCompletionMap` for one user. -/
structure UserData where
  userId : Nat
  name : String
  profileImageUrl : Option String
  completions : List CompletionEntry
  deriving Repr, DecidableEq

/-- Element of the array returned by `getUnitRankings`. -/
structure RankingEntry where
  userId : Nat
  name : String
  profileImageUrl : Option String
  completedAssignments : Nat
  averageCompletionTime : String
  totalMilliseconds : ℚ
  recentCompletions : List CompletionEntry
  overallRank : Nat
  position : Nat
  deriving Repr, DecidableEq

/-- `userCompletionMap.get(userId).completions.push(e)`, creating the map
entry first when absent: a JavaScript `Map` preserves insertion order, so a
new user is appended at the end and an existing user keeps its place. -/
def insertCompletion (m : List UserData) (c : CompletionRow) (e : CompletionEntry) :
    List UserData :=
  match m with
  | [] => [⟨c.userId, c.name, c.profileImageUrl, [e]⟩]
  | ud :: rest =>
    if ud.userId = c.userId then
      { ud with completions := ud.completions ++ [e] } :: rest
    else
      ud :: insertCompletion rest c e

/-- The `CompletionEntry` built for a row once its assignment is resolved:
`completionTime = formatDistance(completedAt, assignment.createdAt)`. -/
def mkCompletionEntry (fmt : Int → Int → String) (c : CompletionRow) (a : Assignment) :
    CompletionEntry :=
  { assignmentId := c.assignmentId
    completedAt := c.completedAt
    createdAt := a.createdAt
    title := a.title
    completionTime := fmt c.completedAt a.createdAt }

/-- Body of the `for (const completion of userCompletions)` loop:
`unitAssignments.find(a => a.id === completion.assignmentId)`, `continue`
on a failed lookup, otherwise insert the annotated completion. -/
def processRow (fmt : Int → Int → String) (unitAssignments : List Assignment)
    (m : List UserData) (c : CompletionRow) : List UserData :=
  match unitAssignments.find? (fun a => a.id == c.assignmentId) with
  | none => m
  | some a => insertCompletion m c (mkCompletionEntry fmt c a)

/-- The whole grouping loop over `userCompletions`. -/
def buildUserCompletionMap (fmt : Int → Int → String) (unitAssignments : List Assignment)
    (rows : List CompletionRow) : List UserData :=
  rows.foldl (processRow fmt unitAssignments) []

/-- `completions.reduce((sum, c) => sum + (c.completedAt - c.createdAt), 0)`. -/
def totalTimeMs (l : List CompletionEntry) : Int :=
  l.foldl (fun sum e => sum + (e.completedAt - e.createdAt)) 0

/-- `completions.length > 0 ? totalTimeMs / completions.length : 0`, with the
division taken exactly in `ℚ`. -/
def avgTimeMs (l : List CompletionEntry) : ℚ :=
  if 0 < l.length then (totalTimeMs l : ℚ) / (l.length : ℚ) else 0

/-- `new Date(ms)` truncates a non-integral millisecond count toward zero. -/
def jsDateTrunc (q : ℚ) : Int := q.num.tdiv q.den

/-- Comparator `(a, b) => b.completedAt - a.completedAt`: descending by
completion timestamp. -/
def recentLE (a b : CompletionEntry) : Bool := b.completedAt ≤ a.completedAt

/-- The object pushed onto `rankings` for one user group. -/
def mkRankingEntry (fmt : Int → Int → String) (ud : UserData) : RankingEntry :=
  { userId := ud.userId
    name := ud.name
    profileImageUrl := ud.profileImageUrl
    completedAssignments := ud.completions.length
    averageCompletionTime := fmt 0 (jsDateTrunc (avgTimeMs ud.completions))
    totalMilliseconds := avgTimeMs ud.completions
    recentCompletions := (ud.completions.mergeSort recentLE).take 3
    overallRank := 0
    position := 0 }

/-- Comparator `(a, b) => a.totalMilliseconds - b.totalMilliseconds`:
ascending by average completion time. -/
def rankLE (a b : RankingEntry) : Bool :=
  decide (a.totalMilliseconds ≤ b.totalMilliseconds)

/-- The `rankings.forEach((ranking, index) => ...)` pass writing
`position = index + 1` and `overallRank = position`. -/
def assignPositionsFrom (i : Nat) : List RankingEntry → List RankingEntry
  | [] => []
  | r :: rs => { r with position := i + 1, overallRank := i + 1 } :: assignPositionsFrom (i + 1) rs

def assignPositions (l : List RankingEntry) : List RankingEntry :=
  assignPositionsFrom 0 l

/-- The core of `getUnitRankings`, as a function of its two fetched record
sets: the unit's assignments and the joined completion rows. -/
def getUnitRankingsCore (fmt : Int → Int → String) (unitAssignments : List Assignment)
    (userCompletions : List CompletionRow) : List RankingEntry :=
  if unitAssignments.isEmpty then []
  else
    let m := buildUserCompletionMap fmt unitAssignments userCompletions
    let rankings := m.map (mkRankingEntry fmt)
    assignPositions (rankings.mergeSort rankLE)

/-- The three tables `getUnitRankings` and `completeAssignment` read. -/
structure DB where
  users : List User
  assignments : List Assignment
  completedAssignments : List CompletedAssignment
  deriving Repr, DecidableEq

/-- The inner join of `completedAssignments` with `users` (on userId) and
`assignments` (on assignmentId), filtered by `assignments.unitCode`. -/
def joinCompletions (db : DB) (unitCode : String) : List CompletionRow :=
  db.completedAssignments.filterMap fun c =>
    match db.users.find? (fun u => u.id == c.userId),
          db.assignments.find? (fun a => a.id == c.assignmentId) with
    | some u, some a =>
      if a.unitCode == unitCode then
        some ⟨c.userId, u.name, u.profileImageUrl, c.assignmentId, c.completedAt⟩
      else none
    | _, _ => none

/-- `getUnitRankings(unitCode)` as a state-passing operation on the database:
it only runs selects, so it returns the database unchanged. -/
def getUnitRankings (fmt : Int → Int → String) (db : DB) (unitCode : String) :
    List RankingEntry × DB :=
  (getUnitRankingsCore fmt (db.assignments.filter (fun a => a.unitCode == unitCode))
      (joinCompletions db unitCode),
   db)

/-- `updateUserRank` in `storage.ts` has an empty body (comments only): it
performs no database write. -/
def updateUserRank (db : DB) (_userId : Nat) : DB := db

/-- The value `completeAssignment` resolves with. -/
structure CompleteResult where
  alreadyCompleted : Bool
  inserted : Option CompletedAssignment
  deriving Repr, DecidableEq

/-- `serial` id generation for the insert. -/
def nextCompletionId (db : DB) : Nat :=
  (db.completedAssignments.map (fun c => c.id)).foldl max 0 + 1

/-- `completeAssignment(assignmentId, userId)`: select an existing completion
for the pair, return `{ alreadyCompleted: true }` when found, otherwise
insert a new row and run `updateUserRank`. -/
def completeAssignment (db : DB) (assignmentId userId : Nat) (now : Int) :
    CompleteResult × DB :=
  match db.completedAssignments.find?
      (fun c => c.assignmentId == assignmentId && c.userId == userId) with
  | some _ => ({ alreadyCompleted := true, inserted := none }, db)
  | none =>
    let comp : CompletedAssignment :=
      ⟨nextCompletionId db, assignmentId, userId, now⟩
    let db1 : DB := { db with completedAssignments := db.completedAssignments ++ [comp] }
    let db2 := updateUserRank db1 userId
    ({ alreadyCompleted := false, inserted := some comp }, db2)

/-- Declared integrity constraints of a table (`shared/schema.ts`). -/
structure TableConstraints where
  tableName : String
  primaryKey : List String
  uniqueColumns : List (List String)
  deriving Repr, DecidableEq

/-- `completed_assignments`: a serial primary key and no unique index. -/
def completedAssignmentsTable : TableConstraints :=
  { tableName := "completed_assignments"
    primaryKey := ["id"]
    uniqueColumns := [] }

/-- `user_note_views`: serial primary key plus
`uniqueIndex("unique_note_view").on(noteId, userId)`. -/
def userNoteViewsTable : TableConstraints :=
  { tableName := "user_note_views"
    primaryKey := ["id"]
    uniqueColumns := [["note_id", "user_id"]] }

/-- A table's declared constraints force at-most-one row per value of `cols`
exactly when the primary key or some unique index uses only columns of
`cols`. -/
def enforcesUniquenessOn (t : TableConstraints) (cols : List String) : Bool :=
  (t.primaryKey :: t.uniqueColumns).any fun u => u.all fun c => cols.contains c

/-! ### A concrete scenario used to witness the theorems

Unit `U1` has assignments `asgA` (created at 0 ms) and `asgB` (created at
100 ms).  User 10 completes both (latencies 50 ms and 100 ms, average 75 ms),
user 11 completes `asgA` at 250 ms (average 250 ms).  `rowBad` references the
nonexistent assignment 99. -/

def fmtD : Int → Int → String := fun _ _ => "d"

def asgA : Assignment :=
  { id := 1, title := "A1", description := "", deadline := 1000, fileUrl := none
    unitCode := "U1", userId := 5, createdAt := 0 }

def asgB : Assignment :=
  { id := 2, title := "A2", description := "", deadline := 1000, fileUrl := none
    unitCode := "U1", userId := 5, createdAt := 100 }

def rowX1 : CompletionRow :=
  { userId := 10, name := "X", profileImageUrl := none, assignmentId := 1, completedAt := 50 }

def rowX2 : CompletionRow :=
  { userId := 10, name := "X", profileImageUrl := none, assignmentId := 2, completedAt := 200 }

def rowY1 : CompletionRow :=
  { userId := 11, name := "Y", profileImageUrl := none, assignmentId := 1, completedAt := 250 }

def rowBad : CompletionRow :=
  { userId := 12, name := "Z", profileImageUrl := none, assignmentId := 99, completedAt := 60 }

def entryX1 : CompletionEntry :=
  { assignmentId := 1, completedAt := 50, createdAt := 0, title := "A1", completionTime := "d" }

def entryX2 : CompletionEntry :=
  { assignmentId := 2, completedAt := 200, createdAt := 100, title := "A2", completionTime := "d" }

def entryY1 : CompletionEntry :=
  { assignmentId := 1, completedAt := 250, createdAt := 0, title := "A1", completionTime := "d" }

def entX : RankingEntry :=
  { userId := 10, name := "X", profileImageUrl := none, completedAssignments := 2
    averageCompletionTime := "d", totalMilliseconds := 75
    recentCompletions := [entryX2, entryX1], overallRank := 1, position := 1 }

def entY : RankingEntry :=
  { userId := 11, name := "Y", profileImageUrl := none, completedAssignments := 1
    averageCompletionTime := "d", totalMilliseconds := 250
    recentCompletions := [entryY1], overallRank := 2, position := 2 }

def udX : UserData :=
  { userId := 10, name := "X", profileImageUrl := none, completions := [entryX1, entryX2] }

def udY : UserData :=
  { userId := 11, name := "Y", profileImageUrl := none, completions := [entryY1] }

def preX : RankingEntry := { entX with position := 0, overallRank := 0 }

def preY : RankingEntry := { entY with position := 0, overallRank := 0 }

def dbEx : DB :=
  { users := [], assignments := [asgA, asgB], completedAssignments := [] }

def dbC : DB :=
  { users := [], assignments := [asgA]
    completedAssignments := [{ id := 1, assignmentId := 1, userId := 10, completedAt := 50 }] }

/-- At most one completion row per (assignment, user) pair. -/
def PairUnique (l : List CompletedAssignment) : Prop :=
  List.Pairwise (fun c1 c2 => ¬(c1.assignmentId = c2.assignmentId ∧ c1.userId = c2.userId)) l

/-! ### Derived notions used to characterise the grouping loop -/

/-- Whether a completion row's assignment resolves in the fetched set. -/
def resolvesP (ua : List Assignment) (c : CompletionRow) : Bool :=
  (ua.find? (fun a => a.id == c.assignmentId)).isSome

/-- The completion rows that survive the defensive `if (!assignment) continue`. -/
def resolvedRows (ua : List Assignment) (rows : List CompletionRow) : List CompletionRow :=
  rows.filter (resolvesP ua)

/-- The annotated entry a row contributes, when its assignment resolves. -/
def entryOf (fmt : Int → Int → String) (ua : List Assignment) (c : CompletionRow) :
    Option CompletionEntry :=
  (ua.find? (fun a => a.id == c.assignmentId)).map (mkCompletionEntry fmt c)

/-- All entries contributed to user `uid` by the rows, in input order. -/
def entriesFor (fmt : Int → Int → String) (ua : List Assignment) (uid : Nat)
    (rows : List CompletionRow) : List CompletionEntry :=
  (rows.filter (fun c => c.userId == uid)).filterMap (entryOf fmt ua)

/-- First occurrences of a list of keys, in order of first appearance. -/
def dedupKeepFirst : List Nat → List Nat
  | [] => []
  | x :: xs => x :: (dedupKeepFirst xs).filter (fun y => y != x)

/-- Index in the completions input of a user's first resolved completion. -/
def firstResolvedIdx (ua : List Assignment) (uc : List CompletionRow) (uid : Nat) : Nat :=
  uc.findIdx (fun c => c.userId == uid && resolvesP ua c)

/-- Invariant of the grouping loop after processing the rows `p`: the map's
keys are the first occurrences of the resolved rows' user ids, and each
user's bucket holds exactly that user's resolved entries in input order. -/
def MapInv (fmt : Int → Int → String) (ua : List Assignment) (p : List CompletionRow)
    (m : List UserData) : Prop :=
  m.map (fun ud => ud.userId) = dedupKeepFirst ((resolvedRows ua p).map (fun c => c.userId)) ∧
  ∀ ud ∈ m, ud.completions = entriesFor fmt ua ud.userId p

/-! ### A tied scenario: users 20 and 21 both average 60 ms -/

def rowP : CompletionRow :=
  { userId := 20, name := "P", profileImageUrl := none, assignmentId := 1, completedAt := 60 }

def rowQ : CompletionRow :=
  { userId := 21, name := "Q", profileImageUrl := none, assignmentId := 2, completedAt := 160 }

def entryP : CompletionEntry :=
  { assignmentId := 1, completedAt := 60, createdAt := 0, title := "A1", completionTime := "d" }

def entryQ : CompletionEntry :=
  { assignmentId := 2, completedAt := 160, createdAt := 100, title := "A2", completionTime := "d" }

def entP : RankingEntry :=
  { userId := 20, name := "P", profileImageUrl := none, completedAssignments := 1
    averageCompletionTime := "d", totalMilliseconds := 60
    recentCompletions := [entryP], overallRank := 1, position := 1 }

def entQ : RankingEntry :=
  { userId := 21, name := "Q", profileImageUrl := none, completedAssignments := 1
    averageCompletionTime := "d", totalMilliseconds := 60
    recentCompletions := [entryQ], overallRank := 2, position := 2 }

def preP : RankingEntry := { entP with position := 0, overallRank := 0 }

def preQ : RankingEntry := { entQ with position := 0, overallRank := 0 }

def udP : UserData :=
  { userId := 20, name := "P", profileImageUrl := none, completions := [entryP] }

def udQ : UserData :=
  { userId := 21, name := "Q", profileImageUrl := none, completions := [entryQ] }

/-! ### Helper lemmas about the position pass -/

theorem length_assignPositionsFrom (i : Nat) (l : List RankingEntry) :
    (assignPositionsFrom i l).length = l.length := by
  induction l generalizing i with
  | nil => rfl
  | cons r rs ih => simp [assignPositionsFrom, ih]

theorem get_assignPositionsFrom (i : Nat) (l : List RankingEntry) (k : Nat)
    (h : k < (assignPositionsFrom i l).length) :
    (assignPositionsFrom i l).get ⟨k, h⟩ =
      { l.get ⟨k, by rw [length_assignPositionsFrom] at h; exact h⟩ with
        position := i + k + 1, overallRank := i + k + 1 } := by
  induction l generalizing i k with
  | nil => simp [assignPositionsFrom] at h
  | cons r rs ih =>
    cases k with
    | zero => simp [assignPositionsFrom]
    | succ k =>
      have h2 : k < (assignPositionsFrom (i + 1) rs).length := by
        rw [length_assignPositionsFrom] at h ⊢
        simp only [List.length_cons] at h
        omega
      have hrec := ih (i + 1) k h2
      have harith : i + 1 + k + 1 = i + (k + 1) + 1 := by omega
      simp only [assignPositionsFrom, List.get_cons_succ]
      rw [hrec, harith]

theorem length_assignPositions (l : List RankingEntry) :
    (assignPositions l).length = l.length :=
  length_assignPositionsFrom 0 l

theorem get_assignPositions (l : List RankingEntry) (k : Nat)
    (h : k < (assignPositions l).length) :
    (assignPositions l).get ⟨k, h⟩ =
      { l.get ⟨k, by rw [length_assignPositions] at h; exact h⟩ with
        position := k + 1, overallRank := k + 1 } := by
  have := get_assignPositionsFrom 0 l k h
  simpa [assignPositions] using this

/-! ### Helper lemmas about the comparators -/

theorem rankLE_trans (a b c : RankingEntry) :
    rankLE a b → rankLE b c → rankLE a c := by
  simp only [rankLE, decide_eq_true_eq]
  exact le_trans

theorem rankLE_total (a b : RankingEntry) : rankLE a b || rankLE b a := by
  simp only [rankLE, Bool.or_eq_true, decide_eq_true_eq]
  exact le_total _ _

theorem recentLE_trans (a b c : CompletionEntry) :
    recentLE a b → recentLE b c → recentLE a c := by
  simp only [recentLE, decide_eq_true_eq]
  intro h1 h2
  exact le_trans h2 h1

theorem recentLE_total (a b : CompletionEntry) : recentLE a b || recentLE b a := by
  simp only [recentLE, Bool.or_eq_true, decide_eq_true_eq]
  exact le_total _ _

theorem getElem?_assignPositionsFrom (i k : Nat) (l : List RankingEntry) :
    (assignPositionsFrom i l)[k]? =
      (l[k]?).map (fun r => { r with position := i + k + 1, overallRank := i + k + 1 }) := by
  induction l generalizing i k with
  | nil => simp [assignPositionsFrom]
  | cons r rs ih =>
    cases k with
    | zero => simp [assignPositionsFrom]
    | succ k =>
      simp only [assignPositionsFrom, List.getElem?_cons_succ]
      rw [ih (i + 1) k]
      have harith : i + 1 + k + 1 = i + (k + 1) + 1 := by omega
      cases rs[k]? with
      | none => rfl
      | some x => simp [harith]

theorem mem_assignPositionsFrom {y : RankingEntry} :
    ∀ (i : Nat) (l : List RankingEntry), y ∈ assignPositionsFrom i l →
      ∃ x ∈ l, ∃ j : Nat, y = { x with position := j, overallRank := j } := by
  intro i l
  induction l generalizing i with
  | nil => simp [assignPositionsFrom]
  | cons r rs ih =>
    intro hy
    rcases List.mem_cons.mp hy with h | h
    · exact ⟨r, List.mem_cons_self r rs, i + 1, h⟩
    · rcases ih (i + 1) h with ⟨x, hx, j, hj⟩
      exact ⟨x, List.mem_cons_of_mem r hx, j, hj⟩

theorem pairwise_totalMs_assignPositionsFrom (i : Nat) (l : List RankingEntry)
    (h : List.Pairwise (fun a b => a.totalMilliseconds ≤ b.totalMilliseconds) l) :
    List.Pairwise (fun a b => a.totalMilliseconds ≤ b.totalMilliseconds)
      (assignPositionsFrom i l) := by
  induction l generalizing i with
  | nil => simp [assignPositionsFrom]
  | cons r rs ih =>
    rcases List.pairwise_cons.mp h with ⟨hr, hrs⟩
    refine List.pairwise_cons.mpr ⟨?_, ih (i + 1) hrs⟩
    intro y hy
    rcases mem_assignPositionsFrom (i + 1) rs hy with ⟨x, hx, j, rfl⟩
    simpa using hr x hx

/-- The final list produced by `getUnitRankingsCore` is pairwise ordered by
the average completion time stored in `totalMilliseconds`. -/
theorem core_pairwise_totalMs (fmt : Int → Int → String) (ua : List Assignment)
    (uc : List CompletionRow) :
    List.Pairwise (fun a b => a.totalMilliseconds ≤ b.totalMilliseconds)
      (getUnitRankingsCore fmt ua uc) := by
  cases hemp : ua.isEmpty with
  | true => simp [getUnitRankingsCore, hemp]
  | false =>
    simp only [getUnitRankingsCore, hemp, Bool.false_eq_true, if_false]
    apply pairwise_totalMs_assignPositionsFrom
    have hp := @List.sorted_mergeSort RankingEntry rankLE rankLE_trans rankLE_total
      ((buildUserCompletionMap fmt ua uc).map (mkRankingEntry fmt))
    exact hp.imp fun hab => by simpa [rankLE, decide_eq_true_eq] using hab

theorem buildExample_eval :
    buildUserCompletionMap fmtD [asgA, asgB] [rowX1, rowY1, rowX2] = [udX, udY] := by
  rfl

theorem mkEntryX_eval : mkRankingEntry fmtD udX = preX := by
  norm_num [mkRankingEntry, udX, preX, entX, avgTimeMs, totalTimeMs,
    entryX1, entryX2, List.mergeSort, recentLE, fmtD]

theorem mkEntryY_eval : mkRankingEntry fmtD udY = preY := by
  norm_num [mkRankingEntry, udY, preY, entY, avgTimeMs, totalTimeMs,
    entryY1, List.mergeSort, recentLE, fmtD]

theorem buildTie_eval :
    buildUserCompletionMap fmtD [asgA, asgB] [rowP, rowQ] = [udP, udQ] := by
  rfl

theorem mkEntryP_eval : mkRankingEntry fmtD udP = preP := by
  norm_num [mkRankingEntry, udP, preP, entP, avgTimeMs, totalTimeMs,
    entryP, List.mergeSort, recentLE, fmtD]

theorem mkEntryQ_eval : mkRankingEntry fmtD udQ = preQ := by
  norm_num [mkRankingEntry, udQ, preQ, entQ, avgTimeMs, totalTimeMs,
    entryQ, List.mergeSort, recentLE, fmtD]

/-- Evaluation of the ranking computation on the tied scenario. -/
theorem tieExample_eval :
    getUnitRankingsCore fmtD [asgA, asgB] [rowP, rowQ] = [entP, entQ] := by
  have hm : List.mergeSort [preP, preQ] rankLE = [preP, preQ] := by
    norm_num [List.mergeSort, rankLE, preP, preQ, entP, entQ]
  simp only [getUnitRankingsCore, buildTie_eval, List.map_cons, List.map_nil,
    mkEntryP_eval, mkEntryQ_eval, List.isEmpty_cons, Bool.false_eq_true, if_false, hm]
  norm_num [assignPositions, assignPositionsFrom, preP, preQ, entP, entQ]

/-- Evaluation of the ranking computation on the concrete scenario. -/
theorem coreExample_eval :
    getUnitRankingsCore fmtD [asgA, asgB] [rowX1, rowY1, rowX2] = [entX, entY] := by
  have hm : List.mergeSort [preX, preY] rankLE = [preX, preY] := by
    norm_num [List.mergeSort, rankLE, preX, preY, entX, entY]
  simp only [getUnitRankingsCore, buildExample_eval, List.map_cons, List.map_nil,
    mkEntryX_eval, mkEntryY_eval, List.isEmpty_cons, Bool.false_eq_true, if_false, hm]
  norm_num [assignPositions, assignPositionsFrom, preX, preY, entX, entY]

/-! ### Lemmas about first-occurrence deduplication -/

theorem mem_dedupKeepFirst {y : Nat} {l : List Nat} : y ∈ dedupKeepFirst l ↔ y ∈ l := by
  induction l with
  | nil => simp [dedupKeepFirst]
  | cons x xs ih =>
    simp only [dedupKeepFirst, List.mem_cons, List.mem_filter, bne_iff_ne]
    constructor
    · rintro (rfl | ⟨hm, _⟩)
      · exact Or.inl rfl
      · exact Or.inr (ih.mp hm)
    · rintro (rfl | hm)
      · exact Or.inl rfl
      · by_cases hyx : y = x
        · exact Or.inl hyx
        · exact Or.inr ⟨ih.mpr hm, hyx⟩

theorem nodup_dedupKeepFirst (l : List Nat) : (dedupKeepFirst l).Nodup := by
  induction l with
  | nil => simp [dedupKeepFirst]
  | cons x xs ih =>
    simp only [dedupKeepFirst]
    rw [List.nodup_cons]
    constructor
    · intro hx
      rcases List.mem_filter.mp hx with ⟨_, hne⟩
      simp at hne
    · exact ih.filter _

theorem dedupKeepFirst_append_one (u : Nat) (l : List Nat) :
    dedupKeepFirst (l ++ [u]) =
      if u ∈ l then dedupKeepFirst l else dedupKeepFirst l ++ [u] := by
  induction l with
  | nil => simp [dedupKeepFirst]
  | cons x xs ih =>
    by_cases hmem : u ∈ xs
    · have h1 : dedupKeepFirst (xs ++ [u]) = dedupKeepFirst xs := by rw [ih]; simp [hmem]
      have h2 : u ∈ x :: xs := List.mem_cons_of_mem x hmem
      simp only [List.cons_append, dedupKeepFirst, List.append_eq, h1, h2, if_true]
    · have h1 : dedupKeepFirst (xs ++ [u]) = dedupKeepFirst xs ++ [u] := by
        rw [ih]; simp [hmem]
      by_cases hux : u = x
      · subst hux
        have h2 : u ∈ u :: xs := List.mem_cons_self u xs
        simp only [List.cons_append, dedupKeepFirst, List.append_eq, h1, h2, if_true,
          List.filter_append]
        simp
      · have h2 : ¬(u ∈ x :: xs) := by simp [hux, hmem]
        simp only [List.cons_append, dedupKeepFirst, List.append_eq, h1, h2, if_false,
          List.filter_append]
        simp [bne_iff_ne, hux]

theorem length_dedupKeepFirst (l : List Nat) :
    (dedupKeepFirst l).length = l.dedup.length := by
  have h1 : (dedupKeepFirst l).Nodup := nodup_dedupKeepFirst l
  have h2 : l.dedup.Nodup := l.nodup_dedup
  have hfs : (dedupKeepFirst l).toFinset = l.dedup.toFinset := by
    ext a
    simp [List.mem_toFinset, mem_dedupKeepFirst, List.mem_dedup]
  calc (dedupKeepFirst l).length
      = (dedupKeepFirst l).toFinset.card := (List.toFinset_card_of_nodup h1).symm
    _ = l.dedup.toFinset.card := by rw [hfs]
    _ = l.dedup.length := List.toFinset_card_of_nodup h2

theorem pairwise_indexOf_dedupKeepFirst (l : List Nat) :
    List.Pairwise (fun a b => l.indexOf a < l.indexOf b) (dedupKeepFirst l) := by
  induction l with
  | nil => simp [dedupKeepFirst]
  | cons x xs ih =>
    simp only [dedupKeepFirst]
    rw [List.pairwise_cons]
    constructor
    · intro b hb
      rcases List.mem_filter.mp hb with ⟨_, hbne⟩
      have hbx : b ≠ x := by simpa using hbne
      rw [List.indexOf_cons_self, List.indexOf_cons_ne _ hbx.symm]
      exact Nat.succ_pos _
    · have hfil : List.Pairwise (fun a b => xs.indexOf a < xs.indexOf b)
          ((dedupKeepFirst xs).filter (fun y => y != x)) :=
        List.Pairwise.sublist (List.filter_sublist _) ih
      refine List.Pairwise.imp_of_mem ?_ hfil
      intro a b ha hb hab
      rcases List.mem_filter.mp ha with ⟨_, hane⟩
      rcases List.mem_filter.mp hb with ⟨_, hbne⟩
      have hax : a ≠ x := by simpa using hane
      have hbx : b ≠ x := by simpa using hbne
      rw [List.indexOf_cons_ne _ hax.symm, List.indexOf_cons_ne _ hbx.symm]
      omega

/-! ### Lemmas about map insertion and contributed entries -/

theorem map_userId_insertCompletion (m : List UserData) (c : CompletionRow)
    (e : CompletionEntry) :
    (insertCompletion m c e).map (fun ud => ud.userId) =
      if c.userId ∈ m.map (fun ud => ud.userId) then m.map (fun ud => ud.userId)
      else m.map (fun ud => ud.userId) ++ [c.userId] := by
  induction m with
  | nil => simp [insertCompletion]
  | cons ud rest ih =>
    simp only [insertCompletion]
    by_cases hid : ud.userId = c.userId
    · simp [hid]
    · simp only [hid, if_false, List.map_cons, ih]
      by_cases hmem : c.userId ∈ rest.map (fun ud => ud.userId)
      · have h2 : c.userId ∈ ud.userId :: rest.map (fun ud => ud.userId) :=
          List.mem_cons_of_mem _ hmem
        simp [hmem, h2]
      · have h2 : ¬(c.userId ∈ ud.userId :: rest.map (fun ud => ud.userId)) := by
          simp only [List.mem_cons]
          rintro (h | h)
          · exact hid h.symm
          · exact hmem h
        simp [hmem, h2]

theorem insertCompletion_mem_spec (m : List UserData) (c : CompletionRow)
    (e : CompletionEntry) (hnd : (m.map (fun ud => ud.userId)).Nodup) :
    ∀ ud' ∈ insertCompletion m c e,
      (ud'.userId ≠ c.userId ∧ ud' ∈ m) ∨
      (c.userId ∉ m.map (fun ud => ud.userId) ∧
        ud' = ⟨c.userId, c.name, c.profileImageUrl, [e]⟩) ∨
      (∃ ud ∈ m, ud.userId = c.userId ∧
        ud' = { ud with completions := ud.completions ++ [e] }) := by
  induction m with
  | nil =>
    intro ud' h
    simp only [insertCompletion, List.mem_singleton] at h
    exact Or.inr (Or.inl ⟨by simp, h⟩)
  | cons ud rest ih =>
    intro ud' h
    simp only [List.map_cons, List.nodup_cons] at hnd
    by_cases hid : ud.userId = c.userId
    · simp only [insertCompletion] at h
      rw [if_pos hid] at h
      rcases List.mem_cons.mp h with rfl | h
      · exact Or.inr (Or.inr ⟨ud, List.mem_cons_self ud rest, hid, rfl⟩)
      · refine Or.inl ⟨?_, List.mem_cons_of_mem ud h⟩
        intro heq
        apply hnd.1
        rw [hid, ← heq]
        exact List.mem_map_of_mem (fun x => x.userId) h
    · simp only [insertCompletion, hid, if_false, List.mem_cons] at h
      rcases h with rfl | h
      · exact Or.inl ⟨hid, List.mem_cons_self ud' rest⟩
      · rcases ih hnd.2 ud' h with h1 | h2 | h3
        · exact Or.inl ⟨h1.1, List.mem_cons_of_mem ud h1.2⟩
        · refine Or.inr (Or.inl ⟨?_, h2.2⟩)
          simp only [List.map_cons, List.mem_cons]
          rintro (hq | hq)
          · exact hid hq.symm
          · exact h2.1 hq
        · rcases h3 with ⟨ud0, hud0, hq, he⟩
          exact Or.inr (Or.inr ⟨ud0, List.mem_cons_of_mem ud hud0, hq, he⟩)

theorem isSome_entryOf (fmt : Int → Int → String) (ua : List Assignment)
    (c : CompletionRow) : (entryOf fmt ua c).isSome = resolvesP ua c := by
  simp [entryOf, resolvesP]

theorem entriesFor_append_one (fmt : Int → Int → String) (ua : List Assignment)
    (uid : Nat) (p : List CompletionRow) (c : CompletionRow) :
    entriesFor fmt ua uid (p ++ [c]) =
      entriesFor fmt ua uid p ++
        (if c.userId = uid then (entryOf fmt ua c).toList else []) := by
  simp only [entriesFor, List.filter_append, List.filterMap_append]
  congr 1
  by_cases h : c.userId = uid
  · cases hoc : entryOf fmt ua c <;> simp [h, List.filter_cons, hoc]
  · simp [h, List.filter_cons]

theorem entriesFor_nil_of_not_resolved (fmt : Int → Int → String) (ua : List Assignment)
    (uid : Nat) :
    ∀ p : List CompletionRow, uid ∉ (resolvedRows ua p).map (fun c => c.userId) →
      entriesFor fmt ua uid p = [] := by
  intro p
  induction p with
  | nil => intro _; rfl
  | cons r rest ih =>
    intro hni
    cases hr : resolvesP ua r with
    | true =>
      rw [resolvedRows, List.filter_cons_of_pos hr] at hni
      simp only [List.map_cons, List.mem_cons] at hni
      push_neg at hni
      have hru : ¬(r.userId = uid) := fun h => hni.1 h.symm
      have : entriesFor fmt ua uid rest = [] := ih (by
        intro hm; exact hni.2 (by simpa [resolvedRows] using hm))
      simpa [entriesFor, List.filter_cons, hru] using this
    | false =>
      rw [resolvedRows, List.filter_cons_of_neg (by simp [hr])] at hni
      have hrest : entriesFor fmt ua uid rest = [] := ih hni
      have hoc : entryOf fmt ua r = none := by
        have := isSome_entryOf fmt ua r
        rw [hr] at this
        exact Option.not_isSome_iff_eq_none.mp (by simp [this])
      by_cases hru : r.userId = uid
      · simpa [entriesFor, List.filter_cons, hru, List.filterMap_cons, hoc] using hrest
      · simpa [entriesFor, List.filter_cons, hru] using hrest

theorem length_filterMap_entryOf (fmt : Int → Int → String) (ua : List Assignment) :
    ∀ l : List CompletionRow,
      (l.filterMap (entryOf fmt ua)).length = (l.filter (resolvesP ua)).length := by
  intro l
  induction l with
  | nil => rfl
  | cons r rest ih =>
    cases hoc : entryOf fmt ua r with
    | none =>
      have hr : resolvesP ua r = false := by
        rw [← isSome_entryOf fmt ua r, hoc]
        rfl
      simp [List.filterMap_cons, hoc, List.filter_cons, hr, ih]
    | some b =>
      have hr : resolvesP ua r = true := by
        rw [← isSome_entryOf fmt ua r, hoc]
        rfl
      simp [List.filterMap_cons, hoc, List.filter_cons, hr, ih]

theorem length_entriesFor (fmt : Int → Int → String) (ua : List Assignment)
    (uid : Nat) (rows : List CompletionRow) :
    (entriesFor fmt ua uid rows).length =
      ((resolvedRows ua rows).filter (fun c => c.userId == uid)).length := by
  rw [entriesFor, length_filterMap_entryOf, resolvedRows, List.filter_filter,
    List.filter_filter]
  congr 1
  apply List.filter_congr
  intro c _
  exact Bool.and_comm _ _

theorem mem_entriesFor {r : CompletionEntry} (fmt : Int → Int → String)
    (ua : List Assignment) (uid : Nat) (rows : List CompletionRow)
    (h : r ∈ entriesFor fmt ua uid rows) :
    ∃ c ∈ rows, c.userId = uid ∧ entryOf fmt ua c = some r := by
  rcases List.mem_filterMap.mp h with ⟨c, hc, hoc⟩
  rcases List.mem_filter.mp hc with ⟨hcm, hq⟩
  exact ⟨c, hcm, by simpa using hq, hoc⟩

/-! ### The grouping loop maintains the map invariant -/

theorem mapInv_nil (fmt : Int → Int → String) (ua : List Assignment) :
    MapInv fmt ua [] [] :=
  ⟨rfl, by simp⟩

theorem mapInv_step (fmt : Int → Int → String) (ua : List Assignment)
    (p : List CompletionRow) (c : CompletionRow) (m : List UserData)
    (h : MapInv fmt ua p m) :
    MapInv fmt ua (p ++ [c]) (processRow fmt ua m c) := by
  obtain ⟨h1, h2⟩ := h
  cases hf : ua.find? (fun a => a.id == c.assignmentId) with
  | none =>
    have hres : resolvesP ua c = false := by simp [resolvesP, hf]
    have hrr : resolvedRows ua (p ++ [c]) = resolvedRows ua p := by
      simp [resolvedRows, List.filter_append, List.filter_cons, hres]
    have hoc : entryOf fmt ua c = none := by simp [entryOf, hf]
    constructor
    · simp only [processRow, hf]
      rw [hrr]
      exact h1
    · intro ud hm
      simp only [processRow, hf] at hm
      have := h2 ud hm
      simp [entriesFor_append_one, hoc, this]
  | some a =>
    have hres : resolvesP ua c = true := by simp [resolvesP, hf]
    have hoc : entryOf fmt ua c = some (mkCompletionEntry fmt c a) := by simp [entryOf, hf]
    have hrr : resolvedRows ua (p ++ [c]) = resolvedRows ua p ++ [c] := by
      simp [resolvedRows, List.filter_append, List.filter_cons, hres]
    have hnd : (m.map (fun ud => ud.userId)).Nodup := by
      rw [h1]
      exact nodup_dedupKeepFirst _
    have hproc : processRow fmt ua m c = insertCompletion m c (mkCompletionEntry fmt c a) := by
      simp [processRow, hf]
    constructor
    · rw [hproc, map_userId_insertCompletion, hrr, h1]
      simp only [List.map_append, List.map_cons, List.map_nil]
      rw [dedupKeepFirst_append_one]
      by_cases hmem : c.userId ∈ (resolvedRows ua p).map (fun c => c.userId)
      · rw [if_pos (mem_dedupKeepFirst.mpr hmem), if_pos hmem]
      · rw [if_neg (fun hx => hmem (mem_dedupKeepFirst.mp hx)), if_neg hmem]
    · intro ud' hm'
      rw [hproc] at hm'
      rcases insertCompletion_mem_spec m c _ hnd ud' hm' with
        ⟨hne, hmem⟩ | ⟨hnotin, rfl⟩ | ⟨ud, hud, huid, rfl⟩
      · rw [entriesFor_append_one, if_neg (fun hh => hne hh.symm)]
        simp [h2 ud' hmem]
      · rw [entriesFor_append_one]
        have hnores : c.userId ∉ (resolvedRows ua p).map (fun c => c.userId) := by
          intro hx
          exact hnotin (by rw [h1]; exact mem_dedupKeepFirst.mpr hx)
        have hbase : entriesFor fmt ua c.userId p = [] :=
          entriesFor_nil_of_not_resolved fmt ua c.userId p hnores
        simp [hbase, hoc]
      · rw [entriesFor_append_one]
        have huid2 : c.userId =
            ({ ud with completions := ud.completions ++ [mkCompletionEntry fmt c a] } :
              UserData).userId := huid.symm
        rw [if_pos huid2]
        simp [h2 ud hud, hoc]

theorem mapInv_foldl (fmt : Int → Int → String) (ua : List Assignment) :
    ∀ (rows p : List CompletionRow) (m : List UserData), MapInv fmt ua p m →
      MapInv fmt ua (p ++ rows) (rows.foldl (processRow fmt ua) m) := by
  intro rows
  induction rows with
  | nil =>
    intro p m h
    simpa using h
  | cons r rest ih =>
    intro p m h
    have hstep := mapInv_step fmt ua p r m h
    have htail := ih (p ++ [r]) (processRow fmt ua m r) hstep
    simpa [List.append_assoc] using htail

theorem buildUserCompletionMap_inv (fmt : Int → Int → String) (ua : List Assignment)
    (rows : List CompletionRow) :
    MapInv fmt ua rows (buildUserCompletionMap fmt ua rows) := by
  have h := mapInv_foldl fmt ua rows [] [] (mapInv_nil fmt ua)
  simpa [buildUserCompletionMap] using h

/-! ### Remaining structural helpers -/

theorem map_userId_assignPositionsFrom (i : Nat) (l : List RankingEntry) :
    (assignPositionsFrom i l).map (fun e => e.userId) = l.map (fun e => e.userId) := by
  induction l generalizing i with
  | nil => rfl
  | cons r rs ih => simp [assignPositionsFrom, ih]

theorem map_userId_map_mkRankingEntry (fmt : Int → Int → String) (m : List UserData) :
    (m.map (mkRankingEntry fmt)).map (fun e => e.userId) = m.map (fun ud => ud.userId) := by
  rw [List.map_map]
  rfl

theorem resolvedRows_nil_left (uc : List CompletionRow) : resolvedRows [] uc = [] := by
  induction uc with
  | nil => rfl
  | cons c rest ih => simp [resolvedRows, List.filter_cons, resolvesP, ih]

theorem getUnitRankingsCore_nonempty (fmt : Int → Int → String) (ua : List Assignment)
    (uc : List CompletionRow) (h : ua.isEmpty = false) :
    getUnitRankingsCore fmt ua uc =
      assignPositions
        (((buildUserCompletionMap fmt ua uc).map (mkRankingEntry fmt)).mergeSort rankLE) := by
  simp [getUnitRankingsCore, h]

/-! ### Order-of-occurrence lemmas -/

theorem sublist_pair_of_indexOf_lt {α : Type} [DecidableEq α] :
    ∀ {l : List α} {a b : α}, l.Nodup → a ∈ l → b ∈ l →
      l.indexOf a < l.indexOf b → [a, b].Sublist l := by
  intro l
  induction l with
  | nil =>
    intro a b _ ha
    simp at ha
  | cons c t ih =>
    intro a b hnd ha hb hlt
    rw [List.nodup_cons] at hnd
    by_cases hac : a = c
    · subst hac
      have hba : b ≠ a := by
        intro h
        subst h
        simp at hlt
      have hbt : b ∈ t := by
        rcases List.mem_cons.mp hb with h | h
        · exact absurd h hba
        · exact h
      exact List.Sublist.cons₂ a (List.singleton_sublist.mpr hbt)
    · have hat : a ∈ t := by
        rcases List.mem_cons.mp ha with h | h
        · exact absurd h hac
        · exact h
      by_cases hbc : b = c
      · subst hbc
        rw [List.indexOf_cons_self, List.indexOf_cons_ne _ (fun h => hac h.symm)] at hlt
        omega
      · have hbt : b ∈ t := by
          rcases List.mem_cons.mp hb with h | h
          · exact absurd h hbc
          · exact h
        rw [List.indexOf_cons_ne _ (fun h => hac h.symm),
          List.indexOf_cons_ne _ (fun h => hbc h.symm)] at hlt
        exact (ih hnd.2 hat hbt (by omega)).cons c

theorem indexOf_lt_of_sublist_pair {α : Type} [DecidableEq α] :
    ∀ {l : List α} {a b : α}, l.Nodup → [a, b].Sublist l →
      l.indexOf a < l.indexOf b := by
  intro l
  induction l with
  | nil =>
    intro a b _ h
    have := List.sublist_nil.mp h
    simp at this
  | cons c t ih =>
    intro a b hnd hsub
    rw [List.nodup_cons] at hnd
    cases hsub with
    | cons _ h =>
      have hat : a ∈ t := h.subset (by simp)
      have hbt : b ∈ t := h.subset (by simp)
      have hac : a ≠ c := fun he => hnd.1 (he ▸ hat)
      have hbc : b ≠ c := fun he => hnd.1 (he ▸ hbt)
      rw [List.indexOf_cons_ne _ hac.symm, List.indexOf_cons_ne _ hbc.symm]
      have := ih hnd.2 h
      omega
    | cons₂ _ h =>
      have hbt : b ∈ t := List.singleton_sublist.mp h
      have hbc : b ≠ c := fun he => hnd.1 (he ▸ hbt)
      rw [List.indexOf_cons_self, List.indexOf_cons_ne _ hbc.symm]
      exact Nat.succ_pos _

theorem findIdx_lt_findIdx_of_indexOf_lt (p : CompletionRow → Bool) :
    ∀ (uc : List CompletionRow) (u v : Nat),
      u ∈ (uc.filter p).map (fun c => c.userId) →
      v ∈ (uc.filter p).map (fun c => c.userId) →
      ((uc.filter p).map (fun c => c.userId)).indexOf u <
        ((uc.filter p).map (fun c => c.userId)).indexOf v →
      uc.findIdx (fun c => c.userId == u && p c) <
        uc.findIdx (fun c => c.userId == v && p c) := by
  intro uc
  induction uc with
  | nil =>
    intro u v hu
    simp at hu
  | cons c rest ih =>
    intro u v hu hv hlt
    cases hp : p c with
    | false =>
      rw [List.filter_cons_of_neg (by simp [hp])] at hu hv hlt
      have hc1 : (c.userId == u && p c) = false := by simp [hp]
      have hc2 : (c.userId == v && p c) = false := by simp [hp]
      rw [List.findIdx_cons, List.findIdx_cons, hc1, hc2]
      simp only [cond_false]
      have := ih u v hu hv hlt
      omega
    | true =>
      rw [List.filter_cons_of_pos hp] at hu hv hlt
      simp only [List.map_cons] at hu hv hlt
      by_cases hvc : v = c.userId
      · rw [hvc, List.indexOf_cons_self] at hlt
        omega
      · by_cases huc : u = c.userId
        · have h1 : (c.userId == u && p c) = true := by simp [huc, hp]
          have h2 : (c.userId == v && p c) = false := by
            simp only [hp, Bool.and_true, beq_eq_false_iff_ne]
            exact fun h => hvc h.symm
          rw [List.findIdx_cons, List.findIdx_cons, h1, h2]
          simp only [cond_true, cond_false]
          omega
        · have h1 : (c.userId == u && p c) = false := by
            simp only [hp, Bool.and_true, beq_eq_false_iff_ne]
            exact fun h => huc h.symm
          have h2 : (c.userId == v && p c) = false := by
            simp only [hp, Bool.and_true, beq_eq_false_iff_ne]
            exact fun h => hvc h.symm
          rw [List.findIdx_cons, List.findIdx_cons, h1, h2]
          simp only [cond_false]
          rw [List.indexOf_cons_ne _ (fun h => huc h.symm),
            List.indexOf_cons_ne _ (fun h => hvc h.symm)] at hlt
          have hu2 : u ∈ (rest.filter p).map (fun c => c.userId) := by
            rcases List.mem_cons.mp hu with h | h
            · exact absurd h huc
            · exact h
          have hv2 : v ∈ (rest.filter p).map (fun c => c.userId) := by
            rcases List.mem_cons.mp hv with h | h
            · exact absurd h hvc
            · exact h
          have := ih u v hu2 hv2 (by omega)
          omega

/-! ### Claim theorems -/

/-- C1: for every unit, the sequence returned by `getUnitRankings` is sorted
ascending by average completion latency: whenever indices `i` and `i + 1` are
both valid in the result, the entry at `i` has average latency
(`totalMilliseconds`) less than or equal to the entry at `i + 1`. -/
theorem getUnitRankings_sorted_by_average_latency
    (fmt : Int → Int → String) (ua : List Assignment) (uc : List CompletionRow)
    (i : Nat) (a b : RankingEntry)
    (ha : (getUnitRankingsCore fmt ua uc)[i]? = some a)
    (hb : (getUnitRankingsCore fmt ua uc)[i + 1]? = some b) :
    a.totalMilliseconds ≤ b.totalMilliseconds := by
  have hp := core_pairwise_totalMs fmt ua uc
  rcases List.getElem?_eq_some.mp ha with ⟨hia, hga⟩
  rcases List.getElem?_eq_some.mp hb with ⟨hib, hgb⟩
  have := List.pairwise_iff_get.mp hp ⟨i, hia⟩ ⟨i + 1, hib⟩ (Nat.lt_succ_self i)
  simpa [List.get_eq_getElem, hga, hgb] using this

theorem getUnitRankings_sorted_by_average_latency_witness :
    (getUnitRankingsCore fmtD [asgA, asgB] [rowX1, rowY1, rowX2])[0]? = some entX ∧
    (getUnitRankingsCore fmtD [asgA, asgB] [rowX1, rowY1, rowX2])[1]? = some entY ∧
    entX.totalMilliseconds ≤ entY.totalMilliseconds := by
  have ha : (getUnitRankingsCore fmtD [asgA, asgB] [rowX1, rowY1, rowX2])[0]? = some entX := by
    rw [coreExample_eval]; rfl
  have hb : (getUnitRankingsCore fmtD [asgA, asgB] [rowX1, rowY1, rowX2])[1]? = some entY := by
    rw [coreExample_eval]; rfl
  exact ⟨ha, hb, getUnitRankings_sorted_by_average_latency fmtD [asgA, asgB]
    [rowX1, rowY1, rowX2] 0 entX entY ha hb⟩

/-- C3: the `position` field of the entry at index `i` of the result of
`getUnitRankings` is exactly `i + 1`, so positions are the contiguous
sequence `1..N` with no gaps and no sharing, even on ties. -/
theorem getUnitRankings_positions_dense
    (fmt : Int → Int → String) (ua : List Assignment) (uc : List CompletionRow)
    (i : Nat) (e : RankingEntry)
    (h : (getUnitRankingsCore fmt ua uc)[i]? = some e) :
    e.position = i + 1 := by
  cases hemp : ua.isEmpty with
  | true => simp [getUnitRankingsCore, hemp] at h
  | false =>
    simp only [getUnitRankingsCore, hemp, Bool.false_eq_true, if_false] at h
    rw [assignPositions, getElem?_assignPositionsFrom] at h
    rcases Option.map_eq_some'.mp h with ⟨r, _, hre⟩
    rw [← hre]
    simp

theorem getUnitRankings_positions_dense_witness :
    (getUnitRankingsCore fmtD [asgA, asgB] [rowX1, rowY1, rowX2])[1]? = some entY ∧
    entY.position = 1 + 1 := by
  have hb : (getUnitRankingsCore fmtD [asgA, asgB] [rowX1, rowY1, rowX2])[1]? = some entY := by
    rw [coreExample_eval]; rfl
  exact ⟨hb, getUnitRankings_positions_dense fmtD [asgA, asgB] [rowX1, rowY1, rowX2] 1 entY hb⟩

/-- C5: a completion row whose `assignmentId` does not resolve in the fetched
assignment set is silently dropped: removing it from the completions input
leaves the result of `getUnitRankings` unchanged, wherever it occurs. -/
theorem getUnitRankings_skips_unresolved_completion
    (fmt : Int → Int → String) (ua : List Assignment) (c : CompletionRow)
    (uc1 uc2 : List CompletionRow)
    (h : ua.find? (fun a => a.id == c.assignmentId) = none) :
    getUnitRankingsCore fmt ua (uc1 ++ c :: uc2) =
      getUnitRankingsCore fmt ua (uc1 ++ uc2) := by
  simp only [getUnitRankingsCore, buildUserCompletionMap, List.foldl_append,
    List.foldl_cons, processRow, h]

theorem getUnitRankings_skips_unresolved_completion_witness :
    [asgA, asgB].find? (fun a => a.id == rowBad.assignmentId) = none ∧
    getUnitRankingsCore fmtD [asgA, asgB] ([rowX1] ++ rowBad :: [rowY1, rowX2]) =
      getUnitRankingsCore fmtD [asgA, asgB] ([rowX1] ++ [rowY1, rowX2]) := by
  have h : [asgA, asgB].find? (fun a => a.id == rowBad.assignmentId) = none := by rfl
  exact ⟨h, getUnitRankings_skips_unresolved_completion fmtD [asgA, asgB] rowBad
    [rowX1] [rowY1, rowX2] h⟩

/-- C6: a unit whose assignment set is empty makes `getUnitRankings` return
the empty list (whatever the completion rows are), leaving the database
untouched: an empty result, not an error. -/
theorem getUnitRankings_empty_assignment_set
    (fmt : Int → Int → String) (db : DB) (code : String)
    (h : db.assignments.filter (fun a => a.unitCode == code) = []) :
    getUnitRankings fmt db code = ([], db) := by
  simp [getUnitRankings, getUnitRankingsCore, h]

theorem getUnitRankings_empty_assignment_set_witness :
    dbEx.assignments.filter (fun a => a.unitCode == "ZZ") = [] ∧
    getUnitRankings fmtD dbEx "ZZ" = ([], dbEx) := by
  have h : dbEx.assignments.filter (fun a => a.unitCode == "ZZ") = [] := by rfl
  exact ⟨h, getUnitRankings_empty_assignment_set fmtD dbEx "ZZ" h⟩

/-- C9: the stored `rank` column of the `users` table is never written by the
ranking logic: `getUnitRankings` leaves the database unchanged,
`updateUserRank` is the identity on the database (its body is empty), and
`completeAssignment` preserves every user's `(id, rank)` pair. -/
theorem users_rank_never_written
    (fmt : Int → Int → String) (db : DB) (code : String)
    (assignmentId userId : Nat) (now : Int) :
    (getUnitRankings fmt db code).2 = db ∧
    updateUserRank db userId = db ∧
    ((completeAssignment db assignmentId userId now).2).users.map (fun u => (u.id, u.rank)) =
      db.users.map (fun u => (u.id, u.rank)) := by
  refine ⟨rfl, rfl, ?_⟩
  unfold completeAssignment
  split <;> simp [updateUserRank]

/-- C8 counterexample: the `completed_assignments` table of `shared/schema.ts`
declares only a serial primary key and no uniqueness constraint covering
`(assignment_id, user_id)` — contrast `user_note_views`, which does declare
`uniqueIndex("unique_note_view")` on its pair — so the at-most-one-completion
invariant is not enforced by the persistence layer. -/
theorem completedAssignments_no_unique_constraint :
    enforcesUniquenessOn completedAssignmentsTable ["assignment_id", "user_id"] = false ∧
    enforcesUniquenessOn userNoteViewsTable ["note_id", "user_id"] = true := by
  decide

/-- C8 (amended): `completeAssignment` preserves the at-most-one-completion
per (assignment, user) pair invariant at the application level: it first
selects an existing completion for the pair, and when one exists it inserts
nothing, returning the database unchanged.  The schema itself declares no
uniqueness constraint on the pair. -/
theorem completeAssignment_preserves_pair_uniqueness
    (db : DB) (assignmentId userId : Nat) (now : Int)
    (h : PairUnique db.completedAssignments) :
    PairUnique ((completeAssignment db assignmentId userId now).2).completedAssignments ∧
    ((∃ c ∈ db.completedAssignments, c.assignmentId = assignmentId ∧ c.userId = userId) →
      (completeAssignment db assignmentId userId now).2 = db) := by
  rcases hf : db.completedAssignments.find?
      (fun c => c.assignmentId == assignmentId && c.userId == userId) with _ | c
  · have hred : (completeAssignment db assignmentId userId now).2 =
        { db with completedAssignments :=
            db.completedAssignments ++ [⟨nextCompletionId db, assignmentId, userId, now⟩] } := by
      simp [completeAssignment, hf, updateUserRank]
    rw [hred]
    constructor
    · have hnone := List.find?_eq_none.mp hf
      unfold PairUnique
      rw [List.pairwise_append]
      refine ⟨h, List.pairwise_singleton _ _, ?_⟩
      intro c1 hc1 c2 hc2
      simp only [List.mem_singleton] at hc2
      subst hc2
      have hno := hnone c1 hc1
      simp only [Bool.and_eq_true, beq_iff_eq, not_and] at hno ⊢
      exact hno
    · rintro ⟨c, hc, h1, h2⟩
      exfalso
      have := List.find?_eq_none.mp hf c hc
      simp [h1, h2] at this
  · have hred : (completeAssignment db assignmentId userId now).2 = db := by
      simp [completeAssignment, hf]
    rw [hred]
    exact ⟨h, fun _ => rfl⟩

theorem completeAssignment_preserves_pair_uniqueness_witness :
    PairUnique dbC.completedAssignments ∧
    (PairUnique ((completeAssignment dbC 1 10 99).2).completedAssignments ∧
      ((∃ c ∈ dbC.completedAssignments, c.assignmentId = 1 ∧ c.userId = 10) →
        (completeAssignment dbC 1 10 99).2 = dbC)) :=
  ⟨by simp [PairUnique, dbC],
   completeAssignment_preserves_pair_uniqueness dbC 1 10 99 (by simp [PairUnique, dbC])⟩

/-- C4: the result of `getUnitRankings` has one entry per distinct userId
appearing in the completions input after dropping unresolved joins: its
length is the number of such distinct userIds, no userId appears twice, and
each entry's `completedAssignments` equals the size of that user's group of
resolved completions. -/
theorem getUnitRankings_count_invariant (fmt : Int → Int → String)
    (ua : List Assignment) (uc : List CompletionRow) :
    (getUnitRankingsCore fmt ua uc).length =
      ((resolvedRows ua uc).map (fun c => c.userId)).dedup.length ∧
    ((getUnitRankingsCore fmt ua uc).map (fun e => e.userId)).Nodup ∧
    ∀ e ∈ getUnitRankingsCore fmt ua uc,
      e.completedAssignments =
        ((resolvedRows ua uc).filter (fun c => c.userId == e.userId)).length := by
  cases hemp : ua.isEmpty with
  | true =>
    have hnil : ua = [] := List.isEmpty_iff.mp hemp
    subst hnil
    rw [resolvedRows_nil_left]
    simp [getUnitRankingsCore]
  | false =>
    have hcore := getUnitRankingsCore_nonempty fmt ua uc hemp
    obtain ⟨h1, h2⟩ := buildUserCompletionMap_inv fmt ua uc
    refine ⟨?_, ?_, ?_⟩
    · rw [hcore, assignPositions, length_assignPositionsFrom, List.length_mergeSort,
        List.length_map, ← List.length_map _ (fun ud => ud.userId), h1,
        length_dedupKeepFirst]
    · rw [hcore, assignPositions, map_userId_assignPositionsFrom]
      have hperm : List.Perm
          ((((buildUserCompletionMap fmt ua uc).map (mkRankingEntry fmt)).mergeSort
            rankLE).map (fun e => e.userId))
          (((buildUserCompletionMap fmt ua uc).map (mkRankingEntry fmt)).map
            (fun e => e.userId)) :=
        (List.mergeSort_perm _ rankLE).map _
      rw [hperm.nodup_iff, map_userId_map_mkRankingEntry, h1]
      exact nodup_dedupKeepFirst _
    · intro e he
      rw [hcore, assignPositions] at he
      rcases mem_assignPositionsFrom 0 _ he with ⟨x, hxs, j, rfl⟩
      have hxr : x ∈ (buildUserCompletionMap fmt ua uc).map (mkRankingEntry fmt) :=
        List.mem_mergeSort.mp hxs
      rcases List.mem_map.mp hxr with ⟨ud, hud, rfl⟩
      have hcomp := h2 ud hud
      show ud.completions.length =
        ((resolvedRows ua uc).filter (fun c => c.userId == ud.userId)).length
      rw [hcomp, length_entriesFor]

theorem getUnitRankings_count_invariant_witness :
    entX ∈ getUnitRankingsCore fmtD [asgA, asgB] [rowX1, rowY1, rowX2] ∧
    entX.completedAssignments =
      ((resolvedRows [asgA, asgB] [rowX1, rowY1, rowX2]).filter
        (fun c => c.userId == entX.userId)).length := by
  have he : entX ∈ getUnitRankingsCore fmtD [asgA, asgB] [rowX1, rowY1, rowX2] := by
    rw [coreExample_eval]
    exact List.mem_cons_self _ _
  exact ⟨he,
    (getUnitRankings_count_invariant fmtD [asgA, asgB] [rowX1, rowY1, rowX2]).2.2 entX he⟩

/-- C7: for every entry of the result, `recentCompletions` has length
`min(3, completion count)`, is sorted descending by completion timestamp,
and each element is one of that user's completions annotated with the
formatted latency between that completion and its assignment's creation. -/
theorem getUnitRankings_recent_completions (fmt : Int → Int → String)
    (ua : List Assignment) (uc : List CompletionRow) (e : RankingEntry)
    (he : e ∈ getUnitRankingsCore fmt ua uc) :
    e.recentCompletions.length = min 3 e.completedAssignments ∧
    List.Pairwise (fun x y => y.completedAt ≤ x.completedAt) e.recentCompletions ∧
    ∀ r ∈ e.recentCompletions,
      r.completionTime = fmt r.completedAt r.createdAt ∧
      (∃ a ∈ ua, a.id = r.assignmentId ∧ a.createdAt = r.createdAt ∧ a.title = r.title) ∧
      (∃ c ∈ uc, c.userId = e.userId ∧ c.assignmentId = r.assignmentId ∧
        c.completedAt = r.completedAt) := by
  cases hemp : ua.isEmpty with
  | true =>
    have hnil : ua = [] := List.isEmpty_iff.mp hemp
    subst hnil
    simp [getUnitRankingsCore] at he
  | false =>
    rw [getUnitRankingsCore_nonempty fmt ua uc hemp, assignPositions] at he
    rcases mem_assignPositionsFrom 0 _ he with ⟨x, hxs, j, rfl⟩
    rcases List.mem_map.mp (List.mem_mergeSort.mp hxs) with ⟨ud, hud, rfl⟩
    obtain ⟨h1, h2⟩ := buildUserCompletionMap_inv fmt ua uc
    have hcomp := h2 ud hud
    refine ⟨?_, ?_, ?_⟩
    · show ((ud.completions.mergeSort recentLE).take 3).length = min 3 ud.completions.length
      rw [List.length_take, List.length_mergeSort]
    · show List.Pairwise (fun x y => y.completedAt ≤ x.completedAt)
        ((ud.completions.mergeSort recentLE).take 3)
      have hp := @List.sorted_mergeSort CompletionEntry recentLE recentLE_trans recentLE_total
        ud.completions
      have hp2 : List.Pairwise (fun x y : CompletionEntry => y.completedAt ≤ x.completedAt)
          (ud.completions.mergeSort recentLE) :=
        hp.imp fun hab => by simpa [recentLE, decide_eq_true_eq] using hab
      exact List.Pairwise.sublist (List.take_sublist _ _) hp2
    · intro r hr
      have hr2 : r ∈ (ud.completions.mergeSort recentLE).take 3 := hr
      have hrm : r ∈ ud.completions :=
        List.mem_mergeSort.mp (List.mem_of_mem_take hr2)
      rw [hcomp] at hrm
      rcases mem_entriesFor fmt ua ud.userId uc hrm with ⟨c, hcm, hcu, hoc⟩
      rcases Option.map_eq_some'.mp hoc with ⟨a, hfind, hmk⟩
      have ham : a ∈ ua := List.mem_of_find?_eq_some hfind
      have haid : a.id = c.assignmentId := by simpa using List.find?_some hfind
      subst hmk
      exact ⟨rfl, ⟨a, ham, haid, rfl, rfl⟩, ⟨c, hcm, hcu, rfl, rfl⟩⟩

theorem getUnitRankings_recent_completions_witness :
    entX ∈ getUnitRankingsCore fmtD [asgA, asgB] [rowX1, rowY1, rowX2] ∧
    (entX.recentCompletions.length = min 3 entX.completedAssignments ∧
     List.Pairwise (fun x y => y.completedAt ≤ x.completedAt) entX.recentCompletions ∧
     ∀ r ∈ entX.recentCompletions,
       r.completionTime = fmtD r.completedAt r.createdAt ∧
       (∃ a ∈ [asgA, asgB], a.id = r.assignmentId ∧ a.createdAt = r.createdAt ∧
         a.title = r.title) ∧
       (∃ c ∈ [rowX1, rowY1, rowX2], c.userId = entX.userId ∧
         c.assignmentId = r.assignmentId ∧ c.completedAt = r.completedAt)) := by
  have he : entX ∈ getUnitRankingsCore fmtD [asgA, asgB] [rowX1, rowY1, rowX2] := by
    rw [coreExample_eval]
    exact List.mem_cons_self _ _
  exact ⟨he, getUnitRankings_recent_completions fmtD [asgA, asgB] [rowX1, rowY1, rowX2] entX he⟩

/-- C10: `getUnitRankings` is deterministic on fixed inputs, and when two
entries carry equal average latency their relative order in the output is the
order of the two users' first resolved completion records in the completions
input: the map groups users in input order and the sort is stable. -/
theorem getUnitRankings_deterministic_stable_ties (fmt : Int → Int → String)
    (ua : List Assignment) (uc : List CompletionRow) (i j : Nat) (a b : RankingEntry)
    (hij : i < j)
    (ha : (getUnitRankingsCore fmt ua uc)[i]? = some a)
    (hb : (getUnitRankingsCore fmt ua uc)[j]? = some b)
    (heq : a.totalMilliseconds = b.totalMilliseconds) :
    getUnitRankingsCore fmt ua uc = getUnitRankingsCore fmt ua uc ∧
    firstResolvedIdx ua uc a.userId < firstResolvedIdx ua uc b.userId := by
  refine ⟨rfl, ?_⟩
  cases hemp : ua.isEmpty with
  | true =>
    have hnil : ua = [] := List.isEmpty_iff.mp hemp
    subst hnil
    simp [getUnitRankingsCore] at ha
  | false =>
    have hcore := getUnitRankingsCore_nonempty fmt ua uc hemp
    rw [hcore, assignPositions, getElem?_assignPositionsFrom] at ha hb
    rcases Option.map_eq_some'.mp ha with ⟨x, hxi, hxa⟩
    rcases Option.map_eq_some'.mp hb with ⟨y, hyj, hyb⟩
    have hax : a.userId = x.userId := by rw [← hxa]
    have hbyid : b.userId = y.userId := by rw [← hyb]
    have haxt : a.totalMilliseconds = x.totalMilliseconds := by rw [← hxa]
    have hbyt : b.totalMilliseconds = y.totalMilliseconds := by rw [← hyb]
    rcases List.getElem?_eq_some.mp hxi with ⟨hilt, hxg⟩
    rcases List.getElem?_eq_some.mp hyj with ⟨hjlt, hyg⟩
    obtain ⟨h1, h2⟩ := buildUserCompletionMap_inv fmt ua uc
    have hndr : (((buildUserCompletionMap fmt ua uc).map (mkRankingEntry fmt)).map
        (fun e => e.userId)).Nodup := by
      rw [map_userId_map_mkRankingEntry, h1]
      exact nodup_dedupKeepFirst _
    have hnds : ((((buildUserCompletionMap fmt ua uc).map (mkRankingEntry fmt)).mergeSort
        rankLE).map (fun e => e.userId)).Nodup := by
      have hperm : List.Perm
          ((((buildUserCompletionMap fmt ua uc).map (mkRankingEntry fmt)).mergeSort
            rankLE).map (fun e => e.userId))
          (((buildUserCompletionMap fmt ua uc).map (mkRankingEntry fmt)).map
            (fun e => e.userId)) :=
        (List.mergeSort_perm _ rankLE).map _
      rw [hperm.nodup_iff]
      exact hndr
    have hndsl : ((((buildUserCompletionMap fmt ua uc).map (mkRankingEntry fmt)).mergeSort
        rankLE)).Nodup := hnds.of_map _
    have hndrl : (((buildUserCompletionMap fmt ua uc).map (mkRankingEntry fmt))).Nodup :=
      hndr.of_map _
    have hxs : x ∈ ((buildUserCompletionMap fmt ua uc).map (mkRankingEntry fmt)).mergeSort
        rankLE := by
      rw [← hxg]
      exact List.getElem_mem hilt
    have hys : y ∈ ((buildUserCompletionMap fmt ua uc).map (mkRankingEntry fmt)).mergeSort
        rankLE := by
      rw [← hyg]
      exact List.getElem_mem hjlt
    have hxr : x ∈ (buildUserCompletionMap fmt ua uc).map (mkRankingEntry fmt) :=
      List.mem_mergeSort.mp hxs
    have hyr : y ∈ (buildUserCompletionMap fmt ua uc).map (mkRankingEntry fmt) :=
      List.mem_mergeSort.mp hys
    have hxyner : x ≠ y := by
      intro h
      have hieqj : i = j := by
        apply hndsl.getElem_inj_iff.mp
        rw [hxg, hyg, h]
      omega
    have hPm : List.Pairwise
        (fun u v : Nat => firstResolvedIdx ua uc u < firstResolvedIdx ua uc v)
        ((buildUserCompletionMap fmt ua uc).map (fun ud => ud.userId)) := by
      rw [h1]
      refine List.Pairwise.imp_of_mem ?_
        (pairwise_indexOf_dedupKeepFirst ((resolvedRows ua uc).map (fun c => c.userId)))
      intro u v huu hvv hlt
      exact findIdx_lt_findIdx_of_indexOf_lt (resolvesP ua) uc u v
        (mem_dedupKeepFirst.mp huu) (mem_dedupKeepFirst.mp hvv) hlt
    have hPm2 : List.Pairwise
        (fun ud1 ud2 : UserData =>
          firstResolvedIdx ua uc ud1.userId < firstResolvedIdx ua uc ud2.userId)
        (buildUserCompletionMap fmt ua uc) :=
      (List.pairwise_map (f := fun ud : UserData => ud.userId)).mp hPm
    have hPrank : List.Pairwise
        (fun x y : RankingEntry => firstResolvedIdx ua uc x.userId < firstResolvedIdx ua uc y.userId)
        ((buildUserCompletionMap fmt ua uc).map (mkRankingEntry fmt)) :=
      (List.pairwise_map (f := mkRankingEntry fmt)).mpr (by exact hPm2)
    rw [hax, hbyid]
    rcases Nat.lt_trichotomy
        (((buildUserCompletionMap fmt ua uc).map (mkRankingEntry fmt)).indexOf x)
        (((buildUserCompletionMap fmt ua uc).map (mkRankingEntry fmt)).indexOf y) with
      hlt | heqi | hgt
    · have hsubp := sublist_pair_of_indexOf_lt hndrl hxr hyr hlt
      have hpw := List.Pairwise.sublist hsubp hPrank
      exact (List.pairwise_cons.mp hpw).1 y (by simp)
    · exact absurd ((List.indexOf_inj hxr hyr).mp heqi) hxyner
    · have hsubp := sublist_pair_of_indexOf_lt hndrl hyr hxr hgt
      have hle : rankLE y x := by
        simp only [rankLE, decide_eq_true_eq]
        rw [← hbyt, ← haxt, heq]
      have hsubs : [y, x].Sublist
          (((buildUserCompletionMap fmt ua uc).map (mkRankingEntry fmt)).mergeSort rankLE) :=
        List.pair_sublist_mergeSort rankLE_trans rankLE_total hle hsubp
      have hyx_lt := indexOf_lt_of_sublist_pair hndsl hsubs
      have hxi2 : (((buildUserCompletionMap fmt ua uc).map (mkRankingEntry fmt)).mergeSort
          rankLE).indexOf x = i := by
        rw [← hxg]
        exact List.indexOf_getElem hndsl i hilt
      have hyj2 : (((buildUserCompletionMap fmt ua uc).map (mkRankingEntry fmt)).mergeSort
          rankLE).indexOf y = j := by
        rw [← hyg]
        exact List.indexOf_getElem hndsl j hjlt
      omega

theorem getUnitRankings_deterministic_stable_ties_witness :
    0 < 1 ∧
    (getUnitRankingsCore fmtD [asgA, asgB] [rowP, rowQ])[0]? = some entP ∧
    (getUnitRankingsCore fmtD [asgA, asgB] [rowP, rowQ])[1]? = some entQ ∧
    entP.totalMilliseconds = entQ.totalMilliseconds ∧
    (getUnitRankingsCore fmtD [asgA, asgB] [rowP, rowQ] =
        getUnitRankingsCore fmtD [asgA, asgB] [rowP, rowQ] ∧
      firstResolvedIdx [asgA, asgB] [rowP, rowQ] entP.userId <
        firstResolvedIdx [asgA, asgB] [rowP, rowQ] entQ.userId) := by
  have ha : (getUnitRankingsCore fmtD [asgA, asgB] [rowP, rowQ])[0]? = some entP := by
    rw [tieExample_eval]; rfl
  have hb : (getUnitRankingsCore fmtD [asgA, asgB] [rowP, rowQ])[1]? = some entQ := by
    rw [tieExample_eval]; rfl
  have heq : entP.totalMilliseconds = entQ.totalMilliseconds := by
    simp [entP, entQ]
  exact ⟨Nat.zero_lt_one, ha, hb, heq,
    getUnitRankings_deterministic_stable_ties fmtD [asgA, asgB] [rowP, rowQ] 0 1 entP entQ
      Nat.zero_lt_one ha hb heq⟩

end Class006
